import Mathlib

/-!
A verification development for the `TomlConfig` class of `toml_lib/toml.py`.

A `TomlConfig` instance is modelled by its `__dict__`: an insertion-ordered
association list from attribute names to Python values.  Python values are
modelled by the inductive type `Val`:

  * `vStr`, `vInt`, `vBool` — TOML/JSON scalars (dates and floats play the
    same passive role as these and are not needed separately);
  * `vNone` — Python `None`;
  * `vArr` — a Python list;
  * `vDict` — a plain Python `dict` (as produced by the TOML/JSON codecs,
    or passed raw by a caller);
  * `vNode` — a `TomlConfig` instance, carried as its `__dict__`.

Attribute access is modelled on this mapping: `hasattr` is key membership,
`getattr` is lookup, `setattr` replaces in place or appends (CPython `dict`
update semantics, which keep the original insertion position), `delattr`
removes the binding.  Class-level attributes (methods) are below this level
of abstraction and are not modelled.  Since Python dict keys are unique,
the `for key, value in data.items(): setattr(...)` loop of `__init__`
appends the bindings in iteration order, which is what `initEntries` does.

File I/O is modelled by a file system `String → Option String` (path to
content); the external TOML and JSON codecs are abstract parameters.
-/

set_option autoImplicit false

namespace TomlLib

/-- A Python value, as stored in a `TomlConfig` attribute. -/
inductive Val : Type where
  | vStr (s : String)
  | vInt (n : Int)
  | vBool (b : Bool)
  | vNone
  | vArr (xs : List Val)
  | vDict (m : List (String × Val))
  | vNode (attrs : List (String × Val))
  deriving Repr

/-- The attribute mapping (`__dict__`) of one `TomlConfig` instance. -/
abbrev Attrs : Type := List (String × Val)

/-- The Python exceptions the source can raise. -/
inductive PyErr : Type where
  | keyError (msg : String)
  | attributeError (msg : String)
  | valueError (msg : String)
  | typeError (msg : String)
  deriving Repr, DecidableEq

/-- `getattr` / attribute lookup on an instance dict. -/
def getKey : Attrs → String → Option Val
  | [], _ => none
  | (k, v) :: rest, key => if k = key then some v else getKey rest key

/-- `hasattr` on an instance dict (class attributes are not modelled). -/
def hasKey (m : Attrs) (key : String) : Bool :=
  (getKey m key).isSome

/-- `setattr`: replace in place when the key is present (CPython dicts keep
the original insertion position), append otherwise. -/
def setKey : Attrs → String → Val → Attrs
  | [], key, v => [(key, v)]
  | (k, w) :: rest, key, v =>
    if k = key then (k, v) :: rest else (k, w) :: setKey rest key v

/-- `delattr`: remove the binding of the key (dict keys are unique). -/
def delKey : Attrs → String → Attrs
  | [], _ => []
  | (k, w) :: rest, key =>
    if k = key then rest else (k, w) :: delKey rest key

/-- The message of the `KeyError` raised by `get`, `remove_item` and
`update_item`: `Key '<key>' does not exist.` with the original key. -/
def keyErrMsg (key : String) : String :=
  "Key '" ++ key ++ "' does not exist."

mutual

/-- The value conversion performed by `TomlConfig.__init__` on each bound
value: a plain `dict` becomes a child `TomlConfig` (built with no
filename), every other value is bound raw. -/
def convVal : Val → Val
  | .vDict m => .vNode (initEntries m)
  | .vStr s => .vStr s
  | .vInt n => .vInt n
  | .vBool b => .vBool b
  | .vNone => .vNone
  | .vArr xs => .vArr xs
  | .vNode m => .vNode m

/-- The `for key, value in data.items(): setattr(...)` loop of
`TomlConfig.__init__`, appending the converted bindings in order. -/
def initEntries : List (String × Val) → Attrs
  | [] => []
  | (k, v) :: rest => (k, convVal v) :: initEntries rest

end

/-- `TomlConfig.__init__(data, filename)`: convert the mapping, then, when
`filename` is truthy (a non-empty string), bind it at `__file__`. -/
def pyInit (data : List (String × Val)) (filename : Option String) : Attrs :=
  let base := initEntries data
  match filename with
  | none => base
  | some f => if f = "" then base else setKey base "__file__" (.vStr f)

/-- Plain construction `TomlConfig(data)` — no origin path. -/
def construct (data : List (String × Val)) : Attrs :=
  pyInit data none

mutual

/-- How `TomlConfig.to_dict` treats one bound value: a `None` binding is
skipped, a child `TomlConfig` is exported recursively, anything else
passes through unchanged. -/
def valExport : Val → Option Val
  | .vNone => none
  | .vNode m => some (.vDict (to_dict m))
  | .vStr s => some (.vStr s)
  | .vInt n => some (.vInt n)
  | .vBool b => some (.vBool b)
  | .vArr xs => some (.vArr xs)
  | .vDict m => some (.vDict m)

/-- `TomlConfig.to_dict`: iterate the instance dict in order, skipping the
key `__file__` and `None` values, recursing through child nodes. -/
def to_dict : Attrs → List (String × Val)
  | [] => []
  | (k, v) :: rest =>
    if k = "__file__" then to_dict rest
    else
      match valExport v with
      | none => to_dict rest
      | some w => (k, w) :: to_dict rest

end

/-- `TomlConfig.get(key)`: if the key is bound and its value is a child
`TomlConfig`, return that child's `__dict__` as a plain dict (one level of
unwrapping — the entries keep their stored representation); any other
bound value is returned as-is; an absent key raises `KeyError` carrying
the requested key. -/
def get (n : Attrs) (key : String) : Except PyErr Val :=
  match getKey n key with
  | some (.vNode m) => .ok (.vDict m)
  | some v => .ok v
  | none => .error (.keyError (keyErrMsg key))

/-- Helper for `splitDots`: the accumulator holds the current segment's
characters in reverse. -/
def splitDotsAux : List Char → List Char → List String
  | [], acc => [String.mk acc.reverse]
  | c :: rest, acc =>
    if c = '.' then String.mk acc.reverse :: splitDotsAux rest []
    else splitDotsAux rest (c :: acc)

/-- Python's `key.split('.')`: split on every dot, keeping empty segments;
the empty string yields `[""]`.  The result is never empty. -/
def splitDots (s : String) : List String :=
  splitDotsAux s.data []

/-- The traversal loop of `TomlConfig.add_item` over the split segments.
At the last segment the value is bound unconditionally.  At an earlier
segment: when absent, an empty child `TomlConfig({})` is created and
descended into; when bound to a child node, that node is reused; when
bound to any other value, the loop descends into it and the following
`setattr` on that non-instance object raises `AttributeError`, before any
binding along the path has been changed. -/
def addGo : Attrs → List String → Val → Except PyErr Attrs
  | cur, [], _ => .ok cur
  | cur, [k], v => .ok (setKey cur k v)
  | cur, k :: k2 :: rest, v =>
    match getKey cur k with
    | none => (addGo [] (k2 :: rest) v).map fun m => setKey cur k (.vNode m)
    | some (.vNode m) => (addGo m (k2 :: rest) v).map fun m2 => setKey cur k (.vNode m2)
    | some _ => .error (.attributeError "cannot set attribute on a non-table value")

/-- `TomlConfig.add_item(key, value)`: split on `.` and walk. -/
def add_item (n : Attrs) (key : String) (v : Val) : Except PyErr Attrs :=
  addGo n (splitDots key) v

/-- The traversal loop of `TomlConfig.remove_item`, returning the tree as
left by the call together with the raised error, if any.  Each segment is
looked up with `hasattr`; an absent segment raises `KeyError` carrying the
full original dotted key (a non-table intermediate value has no instance
attributes, so the next segment is absent on it).  At the last segment the
binding is removed with `delattr`. -/
def removeRun (origKey : String) : Attrs → List String → Attrs × Option PyErr
  | cur, [] => (cur, none)
  | cur, [k] =>
    if hasKey cur k then (delKey cur k, none)
    else (cur, some (.keyError (keyErrMsg origKey)))
  | cur, k :: k2 :: rest =>
    match getKey cur k with
    | none => (cur, some (.keyError (keyErrMsg origKey)))
    | some (.vNode m) =>
      let r := removeRun origKey m (k2 :: rest)
      (setKey cur k (.vNode r.1), r.2)
    | some _ => (cur, some (.keyError (keyErrMsg origKey)))

/-- `TomlConfig.remove_item(key)`: split on `.` and walk. -/
def remove_item (n : Attrs) (key : String) : Attrs × Option PyErr :=
  removeRun key n (splitDots key)

/-- `TomlConfig.update_item(key, value)`: no dot-splitting; rebind when
the key is bound on this node, otherwise raise `KeyError`. -/
def update_item (n : Attrs) (key : String) (v : Val) : Attrs × Option PyErr :=
  if hasKey n key then (setKey n key v, none)
  else (n, some (.keyError (keyErrMsg key)))

/-- `TomlConfig.save_to_file(filename)`: export with `to_dict` and write
the codec-serialized text to `filename`; modelled as the pair
(path written to, mapping handed to the TOML serializer). -/
def save_to_file (n : Attrs) (filename : String) : String × List (String × Val) :=
  (filename, to_dict n)

/-- `TomlConfig.save()`: read `self.__file__`.  When the attribute was
never bound (the node has no origin) the lookup itself raises
`AttributeError` — the `is None` test and its `ValueError` are dead code,
since `__init__` binds `__file__` only to a truthy filename.  When bound
to a string, delegate to `save_to_file`.  (A non-string binding, reachable
only through a data key named `__file__`, is handed to `open()`; modelled
as a type error.) -/
def save (n : Attrs) : Except PyErr (String × List (String × Val)) :=
  match getKey n "__file__" with
  | none => .error (.attributeError "TomlConfig object has no attribute __file__")
  | some .vNone => .error (.valueError "Original filename not available. Use save_to_file() instead.")
  | some (.vStr f) => .ok (save_to_file n f)
  | some _ => .error (.typeError "invalid file path object")

/-- `TomlConfig.to_json()`: encode the `to_dict` export with the external
JSON codec (abstract parameter, `indent=4` folded into it). -/
def to_json (jsonEncode : List (String × Val) → String) (n : Attrs) : String :=
  jsonEncode (to_dict n)

/-- `TomlConfig.from_json(path)`: decode the file content with the
external JSON codec (abstract parameter) and construct with no
filename. -/
def from_json {ε : Type} (jsonDecode : String → Except ε (List (String × Val)))
    (content : String) : Except ε Attrs :=
  (jsonDecode content).map fun data => pyInit data none

/-- The `open(filename, "a")` touch of `TomlConfig.load`: the file now
exists; absent files get empty content, existing content is untouched. -/
def ensureFile (fs : String → Option String) (p : String) : String → Option String :=
  fun q => if q = p then some ((fs p).getD "") else fs q

/-- `TomlConfig.load(filename)` over a file system `fs : path → content`
and the external TOML codec `parse` (abstract parameter): touch the file,
read its full text, parse it (a parse failure propagates unchanged),
construct the node tree and attach `filename` as the origin.  Returns the
file system after the touch and the outcome. -/
def load {ε : Type} (parse : String → Except ε (List (String × Val)))
    (fs : String → Option String) (p : String) :
    (String → Option String) × Except ε Attrs :=
  match parse ((ensureFile fs p p).getD "") with
  | .error e => (ensureFile fs p, .error e)
  | .ok data => (ensureFile fs p, .ok (pyInit data (some p)))

/-- Chained attribute access (`node.a.b.c`-style read): descend through
child nodes on all but the last segment, look up the last. -/
def chainGet : Attrs → List String → Option Val
  | _, [] => none
  | cur, [k] => getKey cur k
  | cur, k :: k2 :: rest =>
    match getKey cur k with
    | some (.vNode m) => chainGet m (k2 :: rest)
    | _ => none

/-- Resolve a (possibly empty) path of segments to the child node it
denotes, descending only through child-node bindings. -/
def nodeAt : Attrs → List String → Option Attrs
  | cur, [] => some cur
  | cur, k :: rest =>
    match getKey cur k with
    | some (.vNode m) => nodeAt m rest
    | _ => none

/-- Chained key lookup through plain dicts in an exported mapping:
descend through `vDict` values on all but the last segment. -/
def dictChainGet : List (String × Val) → List String → Option Val
  | _, [] => none
  | m, [k] => getKey m k
  | m, k :: k2 :: rest =>
    match getKey m k with
    | some (.vDict m2) => dictChainGet m2 (k2 :: rest)
    | _ => none

/-- The keys of an attribute list are pairwise distinct (true of every
`__dict__`, whose keys are unique). -/
def distinctKeys : Attrs → Bool
  | [] => true
  | (k, _) :: rest => !hasKey rest k && distinctKeys rest

mutual

/-- Well-formedness of a stored value: every `TomlConfig` node reachable
through child-node bindings has pairwise-distinct keys. -/
def wfVal : Val → Bool
  | .vNode m => distinctKeys m && wfEntries m
  | _ => true

/-- Well-formedness of every value bound in an attribute list. -/
def wfEntries : Attrs → Bool
  | [] => true
  | (_, v) :: rest => wfVal v && wfEntries rest

end

/-- Well-formedness of a node: its keys are distinct and so are those of
every node below it.  Every `__dict__` the Python program builds
satisfies this. -/
def wfNode (m : Attrs) : Bool :=
  distinctKeys m && wfEntries m

mutual

/-- A plain TOML/JSON-representable value: scalars, lists and plain
dicts — no `None` (TOML has no null) and no `TomlConfig` instances. -/
def plainVal : Val → Bool
  | .vStr _ => true
  | .vInt _ => true
  | .vBool _ => true
  | .vNone => false
  | .vArr xs => plainList xs
  | .vDict m => plainEntries m
  | .vNode _ => false

/-- Plainness of every element of a list value. -/
def plainList : List Val → Bool
  | [] => true
  | v :: rest => plainVal v && plainList rest

/-- Plainness of every value of a mapping. -/
def plainEntries : List (String × Val) → Bool
  | [] => true
  | (_, v) :: rest => plainVal v && plainEntries rest

end

mutual

/-- No key named `__file__` anywhere along the nested-dict chain of a
value (keys inside list elements never become attributes and are not
constrained). -/
def fileFreeVal : Val → Bool
  | .vDict m => fileFreeEntries m
  | _ => true

/-- No key named `__file__` at any nested-dict level of a mapping. -/
def fileFreeEntries : List (String × Val) → Bool
  | [] => true
  | (k, v) :: rest => !(k == "__file__") && fileFreeVal v && fileFreeEntries rest

end

/-! ## Basic lemmas about the attribute-mapping operations -/

theorem getKey_setKey_self (m : Attrs) (k : String) (v : Val) :
    getKey (setKey m k v) k = some v := by
  induction m with
  | nil => simp [setKey, getKey]
  | cons hd tl ih =>
    obtain ⟨k1, v1⟩ := hd
    by_cases h : k1 = k
    · simp [setKey, getKey, h]
    · simp [setKey, getKey, h, ih]

theorem getKey_setKey_ne (m : Attrs) (k k2 : String) (v : Val) (h : k2 ≠ k) :
    getKey (setKey m k v) k2 = getKey m k2 := by
  have hk : ¬(k = k2) := fun hh => h hh.symm
  induction m with
  | nil => simp [setKey, getKey, hk]
  | cons hd tl ih =>
    obtain ⟨k1, v1⟩ := hd
    by_cases h1 : k1 = k
    · subst h1
      simp [setKey, getKey, hk]
    · by_cases h2 : k1 = k2
      · subst h2
        simp [setKey, getKey, h1]
      · simp [setKey, getKey, h1, h2, ih]

theorem setKey_of_getKey (m : Attrs) (k : String) (v : Val)
    (h : getKey m k = some v) : setKey m k v = m := by
  induction m with
  | nil => simp [getKey] at h
  | cons hd tl ih =>
    obtain ⟨k1, v1⟩ := hd
    by_cases h1 : k1 = k
    · simp [getKey, h1] at h
      simp [setKey, h1, h]
    · simp [getKey, h1] at h
      simp [setKey, h1, ih h]

theorem getKey_delKey_self (m : Attrs) (k : String) (h : distinctKeys m = true) :
    getKey (delKey m k) k = none := by
  induction m with
  | nil => simp [delKey, getKey]
  | cons hd tl ih =>
    obtain ⟨k1, v1⟩ := hd
    simp [distinctKeys] at h
    by_cases h1 : k1 = k
    · subst h1
      have h2 : getKey tl k1 = none := by simpa [hasKey] using h.1
      simpa [delKey] using h2
    · simp [delKey, getKey, h1, ih h.2]

theorem wfEntries_getKey (m : Attrs) (k : String) (v : Val)
    (hw : wfEntries m = true) (h : getKey m k = some v) : wfVal v = true := by
  induction m with
  | nil => simp [getKey] at h
  | cons hd tl ih =>
    obtain ⟨k1, v1⟩ := hd
    simp [wfEntries] at hw
    by_cases h1 : k1 = k
    · simp [getKey, h1] at h
      exact h ▸ hw.1
    · simp [getKey, h1] at h
      exact ih hw.2 h

theorem wfNode_child (m m2 : Attrs) (k : String)
    (hw : wfNode m = true) (h : getKey m k = some (.vNode m2)) : wfNode m2 = true := by
  simp [wfNode] at hw
  have := wfEntries_getKey m k _ hw.2 h
  simpa [wfVal, wfNode] using this

theorem splitDotsAux_ne_nil (cs acc : List Char) : splitDotsAux cs acc ≠ [] := by
  induction cs generalizing acc with
  | nil => simp [splitDotsAux]
  | cons c rest ih =>
    by_cases h : c = '.' <;> simp [splitDotsAux, h, ih]

theorem splitDots_ne_nil (s : String) : splitDots s ≠ [] :=
  splitDotsAux_ne_nil s.data []

/-! ## Lemmas about the `remove_item` traversal -/

theorem removeRun_fst_of_err (key : String) :
    ∀ (segs : List String) (cur : Attrs) (e : PyErr),
      (removeRun key cur segs).2 = some e → (removeRun key cur segs).1 = cur := by
  intro segs
  induction segs with
  | nil => intro cur e h; simp [removeRun] at h
  | cons k rest ih =>
    intro cur e h
    cases rest with
    | nil =>
      by_cases hk : hasKey cur k
      · simp [removeRun, hk] at h
      · simp [removeRun, hk]
    | cons k2 rest2 =>
      cases hg : getKey cur k with
      | none => simp [removeRun, hg]
      | some v =>
        cases v with
        | vNode m =>
          simp only [removeRun, hg] at h ⊢
          rw [ih m e h]
          exact setKey_of_getKey cur k _ hg
        | vStr s => simp [removeRun, hg]
        | vInt n => simp [removeRun, hg]
        | vBool b => simp [removeRun, hg]
        | vNone => simp [removeRun, hg]
        | vArr xs => simp [removeRun, hg]
        | vDict m => simp [removeRun, hg]

/-- The walk of `remove_item` succeeds exactly on removable paths: every
intermediate segment bound to a child node and the last segment present. -/
def canRemove : Attrs → List String → Bool
  | _, [] => true
  | cur, [k] => hasKey cur k
  | cur, k :: k2 :: rest =>
    match getKey cur k with
    | some (.vNode m) => canRemove m (k2 :: rest)
    | _ => false

theorem removeRun_none_iff (key : String) :
    ∀ (segs : List String) (cur : Attrs),
      (removeRun key cur segs).2 = none ↔ canRemove cur segs = true := by
  intro segs
  induction segs with
  | nil => intro cur; simp [removeRun, canRemove]
  | cons k rest ih =>
    intro cur
    cases rest with
    | nil =>
      by_cases hk : hasKey cur k <;> simp [removeRun, canRemove, hk]
    | cons k2 rest2 =>
      cases hg : getKey cur k with
      | none => simp [removeRun, canRemove, hg]
      | some v =>
        cases v with
        | vNode m => simpa [removeRun, canRemove, hg] using ih m
        | vStr s => simp [removeRun, canRemove, hg]
        | vInt n => simp [removeRun, canRemove, hg]
        | vBool b => simp [removeRun, canRemove, hg]
        | vNone => simp [removeRun, canRemove, hg]
        | vArr xs => simp [removeRun, canRemove, hg]
        | vDict m => simp [removeRun, canRemove, hg]

theorem removeRun_err_msg (key : String) :
    ∀ (segs : List String) (cur : Attrs) (e : PyErr),
      (removeRun key cur segs).2 = some e → e = .keyError (keyErrMsg key) := by
  intro segs
  induction segs with
  | nil => intro cur e h; simp [removeRun] at h
  | cons k rest ih =>
    intro cur e h
    cases rest with
    | nil =>
      by_cases hk : hasKey cur k
      · simp [removeRun, hk] at h
      · simp [removeRun, hk] at h
        exact h.symm
    | cons k2 rest2 =>
      cases hg : getKey cur k with
      | none =>
        simp [removeRun, hg] at h
        exact h.symm
      | some v =>
        cases v with
        | vNode m =>
          simp only [removeRun, hg] at h
          exact ih m e h
        | vStr s => simp [removeRun, hg] at h; exact h.symm
        | vInt n => simp [removeRun, hg] at h; exact h.symm
        | vBool b => simp [removeRun, hg] at h; exact h.symm
        | vNone => simp [removeRun, hg] at h; exact h.symm
        | vArr xs => simp [removeRun, hg] at h; exact h.symm
        | vDict m => simp [removeRun, hg] at h; exact h.symm

theorem removeRun_chainGet (key : String) :
    ∀ (segs : List String) (cur : Attrs), segs ≠ [] → wfNode cur = true →
      (removeRun key cur segs).2 = none →
      chainGet (removeRun key cur segs).1 segs = none := by
  intro segs
  induction segs with
  | nil => intro cur h; exact absurd rfl h
  | cons k rest ih =>
    intro cur _ hw h
    cases rest with
    | nil =>
      by_cases hk : hasKey cur k
      · simp [removeRun, hk, chainGet]
        exact getKey_delKey_self cur k (by simp [wfNode] at hw; exact hw.1)
      · simp [removeRun, hk] at h
    | cons k2 rest2 =>
      cases hg : getKey cur k with
      | none => simp [removeRun, hg] at h
      | some v =>
        cases v with
        | vNode m =>
          simp only [removeRun, hg] at h ⊢
          simp [chainGet, getKey_setKey_self]
          exact ih m (by simp) (wfNode_child cur m k hw hg) h
        | vStr s => simp [removeRun, hg] at h
        | vInt n => simp [removeRun, hg] at h
        | vBool b => simp [removeRun, hg] at h
        | vNone => simp [removeRun, hg] at h
        | vArr xs => simp [removeRun, hg] at h
        | vDict m => simp [removeRun, hg] at h

theorem removeRun_nodeAt (key : String) :
    ∀ (segs : List String) (cur : Attrs) (pre : List String),
      (removeRun key cur segs).2 = none → pre <+: segs → pre ≠ segs →
      ∃ m2, nodeAt (removeRun key cur segs).1 pre = some m2 := by
  intro segs
  induction segs with
  | nil =>
    intro cur pre _ hp hne
    exact absurd (List.prefix_nil.mp hp) hne
  | cons k rest ih =>
    intro cur pre h hp hne
    cases rest with
    | nil =>
      cases pre with
      | nil => exact ⟨_, rfl⟩
      | cons p ps =>
        obtain ⟨h1, h2⟩ := List.cons_prefix_cons.mp hp
        subst h1
        have := List.prefix_nil.mp h2
        subst this
        exact absurd rfl hne
    | cons k2 rest2 =>
      cases hg : getKey cur k with
      | none => simp [removeRun, hg] at h
      | some v =>
        cases v with
        | vNode m =>
          simp only [removeRun, hg] at h ⊢
          cases pre with
          | nil => exact ⟨_, rfl⟩
          | cons p ps =>
            obtain ⟨h1, h2⟩ := List.cons_prefix_cons.mp hp
            subst h1
            have hps : ps ≠ k2 :: rest2 := by
              intro hh
              exact hne (by rw [hh])
            obtain ⟨m2, hm2⟩ := ih m ps h h2 hps
            exact ⟨m2, by simp [nodeAt, getKey_setKey_self, hm2]⟩
        | vStr s => simp [removeRun, hg] at h
        | vInt n => simp [removeRun, hg] at h
        | vBool b => simp [removeRun, hg] at h
        | vNone => simp [removeRun, hg] at h
        | vArr xs => simp [removeRun, hg] at h
        | vDict m => simp [removeRun, hg] at h

/-! ## Lemmas about the `add_item` traversal -/

theorem addGo_chainGet :
    ∀ (segs : List String) (cur n2 : Attrs) (v : Val), segs ≠ [] →
      addGo cur segs v = .ok n2 → chainGet n2 segs = some v := by
  intro segs
  induction segs with
  | nil => intro cur n2 v h; exact absurd rfl h
  | cons k rest ih =>
    intro cur n2 v _ h
    cases rest with
    | nil =>
      simp [addGo] at h
      simp [← h, chainGet, getKey_setKey_self]
    | cons k2 rest2 =>
      cases hg : getKey cur k with
      | none =>
        simp only [addGo, hg] at h
        cases hm : addGo [] (k2 :: rest2) v with
        | error e => simp [hm, Except.map] at h
        | ok m =>
          simp [hm, Except.map] at h
          simp [← h, chainGet, getKey_setKey_self]
          exact ih [] m v (by simp) hm
      | some w =>
        cases w with
        | vNode m =>
          simp only [addGo, hg] at h
          cases hm : addGo m (k2 :: rest2) v with
          | error e => simp [hm, Except.map] at h
          | ok m2 =>
            simp [hm, Except.map] at h
            simp [← h, chainGet, getKey_setKey_self]
            exact ih m m2 v (by simp) hm
        | vStr s => simp [addGo, hg] at h
        | vInt n => simp [addGo, hg] at h
        | vBool b => simp [addGo, hg] at h
        | vNone => simp [addGo, hg] at h
        | vArr xs => simp [addGo, hg] at h
        | vDict m => simp [addGo, hg] at h

theorem addGo_nodeAt :
    ∀ (segs : List String) (cur n2 : Attrs) (v : Val) (pre : List String),
      addGo cur segs v = .ok n2 → pre <+: segs → pre ≠ segs →
      ∃ m2, nodeAt n2 pre = some m2 := by
  intro segs
  induction segs with
  | nil =>
    intro cur n2 v pre _ hp hne
    exact absurd (List.prefix_nil.mp hp) hne
  | cons k rest ih =>
    intro cur n2 v pre h hp hne
    cases rest with
    | nil =>
      cases pre with
      | nil => exact ⟨n2, rfl⟩
      | cons p ps =>
        obtain ⟨h1, h2⟩ := List.cons_prefix_cons.mp hp
        subst h1
        have := List.prefix_nil.mp h2
        subst this
        exact absurd rfl hne
    | cons k2 rest2 =>
      cases pre with
      | nil => exact ⟨n2, rfl⟩
      | cons p ps =>
        obtain ⟨h1, h2⟩ := List.cons_prefix_cons.mp hp
        subst h1
        have hps : ps ≠ k2 :: rest2 := fun hh => hne (by rw [hh])
        cases hg : getKey cur p with
        | none =>
          simp only [addGo, hg] at h
          cases hm : addGo [] (k2 :: rest2) v with
          | error e => simp [hm, Except.map] at h
          | ok m =>
            simp [hm, Except.map] at h
            obtain ⟨m2, hm2⟩ := ih [] m v ps hm h2 hps
            exact ⟨m2, by simp [← h, nodeAt, getKey_setKey_self, hm2]⟩
        | some w =>
          cases w with
          | vNode m =>
            simp only [addGo, hg] at h
            cases hm : addGo m (k2 :: rest2) v with
            | error e => simp [hm, Except.map] at h
            | ok m2 =>
              simp [hm, Except.map] at h
              obtain ⟨m3, hm3⟩ := ih m m2 v ps hm h2 hps
              exact ⟨m3, by simp [← h, nodeAt, getKey_setKey_self, hm3]⟩
          | vStr s => simp [addGo, hg] at h
          | vInt n => simp [addGo, hg] at h
          | vBool b => simp [addGo, hg] at h
          | vNone => simp [addGo, hg] at h
          | vArr xs => simp [addGo, hg] at h
          | vDict m => simp [addGo, hg] at h

/-! ## Lemmas relating traversal, `to_dict` and chained access -/

theorem chainGet_append_singleton :
    ∀ (pre : List String) (cur : Attrs) (k : String),
      chainGet cur (pre ++ [k]) =
        match nodeAt cur pre with
        | some m => getKey m k
        | none => none := by
  intro pre
  induction pre with
  | nil => intro cur k; simp [chainGet, nodeAt]
  | cons p ps ih =>
    intro cur k
    have hcons : ∃ q qs, ps ++ [k] = q :: qs := by
      cases ps <;> exact ⟨_, _, rfl⟩
    obtain ⟨q, qs, hq⟩ := hcons
    simp only [List.cons_append, hq, chainGet, nodeAt]
    cases hg : getKey cur p with
    | none => rfl
    | some w =>
      cases w with
      | vNode m => rw [← hq]; exact ih m k
      | vStr s => rfl
      | vInt n => rfl
      | vBool b => rfl
      | vNone => rfl
      | vArr xs => rfl
      | vDict m2 => rfl

theorem getKey_to_dict (cur : Attrs) (k : String) (v w : Val)
    (hk : k ≠ "__file__") (h : getKey cur k = some v) (hw : valExport v = some w) :
    getKey (to_dict cur) k = some w := by
  induction cur with
  | nil => simp [getKey] at h
  | cons hd tl ih =>
    obtain ⟨k1, v1⟩ := hd
    by_cases h1 : k1 = k
    · subst h1
      simp [getKey] at h
      subst h
      simp [to_dict, hk, hw, getKey]
    · simp [getKey, h1] at h
      by_cases hf : k1 = "__file__"
      · simpa [to_dict, hf] using ih h
      · cases he : valExport v1 with
        | none => simpa [to_dict, hf, he] using ih h
        | some w1 =>
          simp [to_dict, hf, he, getKey, h1]
          exact ih h

theorem to_dict_chainGet :
    ∀ (segs : List String) (cur : Attrs) (v w : Val),
      chainGet cur segs = some v → "__file__" ∉ segs → valExport v = some w →
      dictChainGet (to_dict cur) segs = some w := by
  intro segs
  induction segs with
  | nil => intro cur v w h; simp [chainGet] at h
  | cons k rest ih =>
    intro cur v w h hf hw
    have hk : k ≠ "__file__" := fun hh => hf (hh ▸ List.mem_cons_self k rest)
    have hfr : "__file__" ∉ rest := fun hh => hf (List.mem_cons_of_mem k hh)
    cases rest with
    | nil =>
      simp [chainGet] at h
      simp [dictChainGet]
      exact getKey_to_dict cur k v w hk h hw
    | cons k2 rest2 =>
      simp only [chainGet] at h
      cases hg : getKey cur k with
      | none => simp [hg] at h
      | some u =>
        cases u with
        | vNode m =>
          simp only [hg] at h
          have h2 : getKey (to_dict cur) k = some (.vDict (to_dict m)) :=
            getKey_to_dict cur k (.vNode m) (.vDict (to_dict m)) hk hg (by simp [valExport])
          simp only [dictChainGet, h2]
          exact ih m v w h hfr hw
        | vStr s => simp [hg] at h
        | vInt n => simp [hg] at h
        | vBool b => simp [hg] at h
        | vNone => simp [hg] at h
        | vArr xs => simp [hg] at h
        | vDict m2 => simp [hg] at h

/-! ## Round-trip of construction and export -/

mutual

theorem roundtrip_val (v : Val) (hp : plainVal v = true) (hf : fileFreeVal v = true) :
    valExport (convVal v) = some v := by
  cases v with
  | vStr s => rfl
  | vInt n => rfl
  | vBool b => rfl
  | vNone => simp [plainVal] at hp
  | vArr xs => rfl
  | vNode m => simp [plainVal] at hp
  | vDict m =>
    have h1 : to_dict (initEntries m) = m :=
      roundtrip_entries m (by simpa [plainVal] using hp) (by simpa [fileFreeVal] using hf)
    simp [convVal, valExport, h1]

theorem roundtrip_entries (M : List (String × Val)) (hp : plainEntries M = true)
    (hf : fileFreeEntries M = true) : to_dict (initEntries M) = M := by
  cases M with
  | nil => rfl
  | cons hd tl =>
    obtain ⟨k, v⟩ := hd
    simp [plainEntries] at hp
    simp [fileFreeEntries] at hf
    obtain ⟨⟨hf1, hf2⟩, hf3⟩ := hf
    have h1 : valExport (convVal v) = some v := roundtrip_val v hp.1 hf2
    have h2 : to_dict (initEntries tl) = tl := roundtrip_entries tl hp.2 hf3
    simp [initEntries, to_dict, hf1, h1, h2]

end

/-! ## Where the origin attribute can appear -/

mutual

/-- No `TomlConfig` node reachable through child-node bindings of this
value carries a `__file__` attribute. -/
def originFreeVal : Val → Bool
  | .vNode m => !hasKey m "__file__" && originFreeEntries m
  | _ => true

/-- `originFreeVal` for every value bound in an attribute list. -/
def originFreeEntries : Attrs → Bool
  | [] => true
  | (_, v) :: rest => originFreeVal v && originFreeEntries rest

end

/-- Neither this node nor any node below it carries a `__file__`
attribute. -/
def originFreeNode (m : Attrs) : Bool :=
  !hasKey m "__file__" && originFreeEntries m

theorem initEntries_no_file (M : List (String × Val)) (hf : fileFreeEntries M = true) :
    hasKey (initEntries M) "__file__" = false := by
  induction M with
  | nil => simp [initEntries, hasKey, getKey]
  | cons hd tl ih =>
    obtain ⟨k, v⟩ := hd
    simp [fileFreeEntries] at hf
    obtain ⟨⟨hf1, _⟩, hf3⟩ := hf
    simp [initEntries, hasKey, getKey, fun hh : k = "__file__" => hf1 hh]
    simpa [hasKey] using ih hf3

mutual

theorem originFree_val (v : Val) (hp : plainVal v = true) (hf : fileFreeVal v = true) :
    originFreeVal (convVal v) = true := by
  cases v with
  | vStr s => rfl
  | vInt n => rfl
  | vBool b => rfl
  | vNone => rfl
  | vArr xs => rfl
  | vNode m => simp [plainVal] at hp
  | vDict m =>
    have hp2 : plainEntries m = true := by simpa [plainVal] using hp
    have hf2 : fileFreeEntries m = true := by simpa [fileFreeVal] using hf
    simp [convVal, originFreeVal, initEntries_no_file m hf2,
      originFree_entries m hp2 hf2]

theorem originFree_entries (M : List (String × Val)) (hp : plainEntries M = true)
    (hf : fileFreeEntries M = true) : originFreeEntries (initEntries M) = true := by
  cases M with
  | nil => rfl
  | cons hd tl =>
    obtain ⟨k, v⟩ := hd
    simp [plainEntries] at hp
    simp [fileFreeEntries] at hf
    obtain ⟨⟨_, hf2⟩, hf3⟩ := hf
    simp [initEntries, originFreeEntries, originFree_val v hp.1 hf2,
      originFree_entries tl hp.2 hf3]

end

theorem to_dict_no_file (n : Attrs) : hasKey (to_dict n) "__file__" = false := by
  induction n with
  | nil => simp [to_dict, hasKey, getKey]
  | cons hd tl ih =>
    obtain ⟨k, v⟩ := hd
    by_cases hk : k = "__file__"
    · simpa [to_dict, hk] using ih
    · cases he : valExport v with
      | none => simpa [to_dict, hk, he] using ih
      | some w =>
        simpa [to_dict, hk, he, hasKey, getKey] using ih

/-! ## Claim theorems -/

/-- Claim C1, counterexample: the claim quantifies over every finite plain
mapping with string keys, but a mapping binding the key `__file__` (a
legal TOML/JSON key) is silently dropped by `to_dict`, because `to_dict`
excludes the origin-path attribute by name. -/
theorem C1_roundtrip_cex :
    plainEntries [("__file__", Val.vInt 1)] = true ∧
    to_dict (construct [("__file__", Val.vInt 1)]) ≠ [("__file__", Val.vInt 1)] := by
  constructor
  · rfl
  · simp [construct, pyInit, initEntries, convVal, to_dict]

/-- Claim C1, amended: for every finite plain nested mapping with string
keys and TOML-representable values in which no table, at any depth, binds
the reserved key `__file__`, exporting the constructed node with `to_dict`
yields the original mapping. -/
theorem C1_roundtrip (M : List (String × Val)) (hp : plainEntries M = true)
    (hf : fileFreeEntries M = true) : to_dict (construct M) = M := by
  simpa [construct, pyInit] using roundtrip_entries M hp hf

/-- Witness for C1 at a concrete mapping with a scalar, a nested table
containing an empty sub-table, and an array. -/
theorem C1_roundtrip_witness :
    plainEntries [("a", Val.vInt 1),
      ("t", Val.vDict [("b", Val.vStr "x"), ("u", Val.vDict [])]),
      ("l", Val.vArr [Val.vInt 2])] = true ∧
    to_dict (construct [("a", Val.vInt 1),
      ("t", Val.vDict [("b", Val.vStr "x"), ("u", Val.vDict [])]),
      ("l", Val.vArr [Val.vInt 2])]) =
      [("a", Val.vInt 1),
       ("t", Val.vDict [("b", Val.vStr "x"), ("u", Val.vDict [])]),
       ("l", Val.vArr [Val.vInt 2])] :=
  ⟨rfl, C1_roundtrip _ rfl rfl⟩

/-- Claim C2, behavior at the failing input: `save()` on a node with no
origin path raises `AttributeError` from the `self.__file__` lookup — the
`ValueError` (configuration-error) branch guarding `is None` is
unreachable, since `__init__` never initializes `__file__` to `None` —
while `save()` on a loaded node writes the `to_dict` export to the origin
path. -/
theorem C2_save_no_origin :
    save (construct []) =
      .error (.attributeError "TomlConfig object has no attribute __file__") ∧
    save (pyInit [("a", Val.vInt 1)] (some "cfg.toml")) =
      .ok ("cfg.toml", [("a", Val.vInt 1)]) :=
  ⟨rfl, rfl⟩

/-- Claim C3: `get` is single-level: a key bound to a sub-node yields that
sub-table's mapping with exactly one level of unwrapping (entries keep
their stored representation), any other bound value is returned as-is,
and an absent key — dotted strings included, since the key is used
literally — raises `KeyError` with the requested key. -/
theorem C3_get_single_level (n : Attrs) (key : String) :
    (∀ m, getKey n key = some (.vNode m) → get n key = .ok (.vDict m)) ∧
    (∀ v, getKey n key = some v → (∀ m, v ≠ Val.vNode m) → get n key = .ok v) ∧
    (getKey n key = none → get n key = .error (.keyError (keyErrMsg key))) := by
  refine ⟨fun m h => by simp [get, h], fun v h hv => ?_, fun h => by simp [get, h]⟩
  cases v with
  | vNode m => exact absurd rfl (hv m)
  | vStr s => simp [get, h]
  | vInt n2 => simp [get, h]
  | vBool b => simp [get, h]
  | vNone => simp [get, h]
  | vArr xs => simp [get, h]
  | vDict m => simp [get, h]

/-- Witness for C3: sub-node unwrapped one level, scalar as-is, and a
dotted key failing although the chained path exists. -/
theorem C3_get_witness :
    get [("data", Val.vNode [("key", Val.vInt 1), ("key2", Val.vInt 2)]), ("x", Val.vInt 5)]
        "data" = .ok (Val.vDict [("key", Val.vInt 1), ("key2", Val.vInt 2)]) ∧
    get [("data", Val.vNode [("key", Val.vInt 1), ("key2", Val.vInt 2)]), ("x", Val.vInt 5)]
        "x" = .ok (Val.vInt 5) ∧
    get [("data", Val.vNode [("key", Val.vInt 1), ("key2", Val.vInt 2)]), ("x", Val.vInt 5)]
        "data.key" = .error (.keyError (keyErrMsg "data.key")) :=
  ⟨(C3_get_single_level
      [("data", Val.vNode [("key", Val.vInt 1), ("key2", Val.vInt 2)]), ("x", Val.vInt 5)]
      "data").1 [("key", Val.vInt 1), ("key2", Val.vInt 2)] rfl,
   (C3_get_single_level
      [("data", Val.vNode [("key", Val.vInt 1), ("key2", Val.vInt 2)]), ("x", Val.vInt 5)]
      "x").2.1 (Val.vInt 5) rfl (by intro m h; cases h),
   (C3_get_single_level
      [("data", Val.vNode [("key", Val.vInt 1), ("key2", Val.vInt 2)]), ("x", Val.vInt 5)]
      "data.key").2.2 rfl⟩

/-- Claim C4: when the `add_item` walk is defined (no present intermediate
segment bound to a non-table value — the source descends into such values
and fails, which the spec leaves undefined), the value is bound at the
last segment and chained attribute access over the same segments retrieves
exactly it, with every proper prefix of the path resolving to a sub-table
(absent intermediates auto-vivified, present ones reused). -/
theorem C4_add_item_retrieve (n : Attrs) (key : String) (v : Val) (n2 : Attrs)
    (h : add_item n key v = .ok n2) :
    chainGet n2 (splitDots key) = some v ∧
    (∀ pre, pre <+: splitDots key → pre ≠ splitDots key → ∃ m, nodeAt n2 pre = some m) :=
  ⟨addGo_chainGet (splitDots key) n n2 v (splitDots_ne_nil key) h,
   fun pre hp hne => addGo_nodeAt (splitDots key) n n2 v pre h hp hne⟩

/-- Witness for C4: multi-level auto-vivification `add_item('a.b.c', 1)`
on an empty root, with `a` and `a.b` sub-tables and `a.b.c = 1`. -/
theorem C4_add_item_witness :
    chainGet [("a", Val.vNode [("b", Val.vNode [("c", Val.vInt 1)])])] (splitDots "a.b.c") =
      some (Val.vInt 1) ∧
    (∃ m, nodeAt [("a", Val.vNode [("b", Val.vNode [("c", Val.vInt 1)])])] ["a"] = some m) ∧
    (∃ m, nodeAt [("a", Val.vNode [("b", Val.vNode [("c", Val.vInt 1)])])] ["a", "b"] = some m) :=
  ⟨(C4_add_item_retrieve [] "a.b.c" (Val.vInt 1) _ rfl).1,
   (C4_add_item_retrieve [] "a.b.c" (Val.vInt 1) _ rfl).2 ["a"] ⟨["b", "c"], rfl⟩ (by decide),
   (C4_add_item_retrieve [] "a.b.c" (Val.vInt 1) _ rfl).2 ["a", "b"] ⟨["c"], rfl⟩ (by decide)⟩

/-- Claim C5: `remove_item` fails exactly when the split path is not fully
walkable (some segment absent — including descent into a non-table value,
on which the next segment is an absent attribute), always raising
`KeyError` with the full original dotted key; on success the last segment
is unbound from its parent while every proper prefix of the path still
resolves to a (possibly now empty) sub-table — no pruning. -/
theorem C5_remove_item_walk (n : Attrs) (key : String) :
    ((remove_item n key).2 = none ↔ canRemove n (splitDots key) = true) ∧
    (∀ e, (remove_item n key).2 = some e → e = .keyError (keyErrMsg key)) ∧
    ((remove_item n key).2 = none → wfNode n = true →
      chainGet (remove_item n key).1 (splitDots key) = none) ∧
    ((remove_item n key).2 = none → ∀ pre, pre <+: splitDots key →
      pre ≠ splitDots key → ∃ m2, nodeAt (remove_item n key).1 pre = some m2) :=
  ⟨removeRun_none_iff key (splitDots key) n,
   fun e he => removeRun_err_msg key (splitDots key) n e he,
   fun hn hw => removeRun_chainGet key (splitDots key) n (splitDots_ne_nil key) hw hn,
   fun hn pre hp hne => removeRun_nodeAt key (splitDots key) n pre hn hp hne⟩

/-- Witness for C5: successful removal of `a.b` unbinds it while `a`
stays, and a removal through a missing segment raises `KeyError` naming
the full dotted key. -/
theorem C5_remove_item_witness :
    (remove_item [("a", Val.vNode [("b", Val.vInt 1), ("c", Val.vInt 2)])] "a.b").2 = none ∧
    chainGet (remove_item [("a", Val.vNode [("b", Val.vInt 1), ("c", Val.vInt 2)])] "a.b").1
      (splitDots "a.b") = none ∧
    (∃ m2, nodeAt (remove_item [("a", Val.vNode [("b", Val.vInt 1), ("c", Val.vInt 2)])] "a.b").1
      ["a"] = some m2) ∧
    PyErr.keyError (keyErrMsg "x.y") = .keyError (keyErrMsg "x.y") :=
  ⟨(C5_remove_item_walk [("a", Val.vNode [("b", Val.vInt 1), ("c", Val.vInt 2)])] "a.b").1.mpr
     rfl,
   (C5_remove_item_walk [("a", Val.vNode [("b", Val.vInt 1), ("c", Val.vInt 2)])] "a.b").2.2.1
     rfl rfl,
   (C5_remove_item_walk [("a", Val.vNode [("b", Val.vInt 1), ("c", Val.vInt 2)])] "a.b").2.2.2
     rfl ["a"] ⟨["b"], rfl⟩ (by decide),
   (C5_remove_item_walk [("a", Val.vNode [("b", Val.vInt 1), ("c", Val.vInt 2)])] "x.y").2.1
     (.keyError (keyErrMsg "x.y")) rfl⟩

/-- Claim C6: `update_item` never splits on dots: it rebinds the literal
key when present (touching no other binding), and raises `KeyError` with
that key when absent, creating nothing. -/
theorem C6_update_item_single_level (n : Attrs) (key : String) (v : Val) :
    (hasKey n key = true →
      (update_item n key v).2 = none ∧
      getKey (update_item n key v).1 key = some v ∧
      ∀ k2, k2 ≠ key → getKey (update_item n key v).1 k2 = getKey n k2) ∧
    (hasKey n key = false →
      update_item n key v = (n, some (.keyError (keyErrMsg key)))) := by
  constructor
  · intro h
    refine ⟨by simp [update_item, h], by simp [update_item, h, getKey_setKey_self],
      fun k2 hk2 => ?_⟩
    simp [update_item, h]
    exact getKey_setKey_ne n key k2 v hk2
  · intro h
    simp [update_item, h]

/-- Witness for C6: rebinding a present key, and failure on a dotted key
that is absent as a literal binding although the chained path exists. -/
theorem C6_update_item_witness :
    getKey (update_item [("a", Val.vNode [("b", Val.vInt 1)]), ("k", Val.vInt 0)]
      "k" (Val.vStr "w")).1 "k" = some (Val.vStr "w") ∧
    update_item [("a", Val.vNode [("b", Val.vInt 1)]), ("k", Val.vInt 0)]
      "a.b" (Val.vStr "w") =
      ([("a", Val.vNode [("b", Val.vInt 1)]), ("k", Val.vInt 0)],
        some (.keyError (keyErrMsg "a.b"))) :=
  ⟨((C6_update_item_single_level [("a", Val.vNode [("b", Val.vInt 1)]), ("k", Val.vInt 0)]
      "k" (Val.vStr "w")).1 rfl).2.1,
   (C6_update_item_single_level [("a", Val.vNode [("b", Val.vInt 1)]), ("k", Val.vInt 0)]
      "a.b" (Val.vStr "w")).2 rfl⟩

/-- Claim C7, counterexample: a node built by plain construction (as
`from_json` does) from a mapping with a data key `__file__` does carry an
origin-path attribute — `save()` even succeeds on it and writes to that
path — so the origin is not attached only to roots returned by `load`. -/
theorem C7_origin_cex :
    construct [("__file__", Val.vStr "other.toml")] =
      [("__file__", Val.vStr "other.toml")] ∧
    getKey (construct [("__file__", Val.vStr "other.toml")]) "__file__" =
      some (Val.vStr "other.toml") ∧
    save (construct [("__file__", Val.vStr "other.toml")]) = .ok ("other.toml", []) :=
  ⟨rfl, rfl, rfl⟩

/-- Claim C7, amended: the origin attribute is excluded from every data
export (`to_dict`, hence also the JSON and TOML text exports, which
serialize it); construction from a mapping that binds no `__file__` key at
any table depth attaches no origin anywhere in the tree; and `load`
attaches the (non-empty) path as the origin of the root it returns. -/
theorem C7_origin_invariant :
    (∀ n : Attrs, hasKey (to_dict n) "__file__" = false) ∧
    (∀ data, plainEntries data = true → fileFreeEntries data = true →
      originFreeNode (construct data) = true) ∧
    (∀ (ε : Type) (parse : String → Except ε (List (String × Val)))
      (fs : String → Option String) (p : String) (fs2 : String → Option String) (n : Attrs),
      p ≠ "" → load parse fs p = (fs2, .ok n) → getKey n "__file__" = some (.vStr p)) := by
  refine ⟨to_dict_no_file, fun data hp hf => ?_, ?_⟩
  · have h1 := initEntries_no_file data hf
    have h2 := originFree_entries data hp hf
    simp [construct, pyInit, originFreeNode, h1, h2]
  · intro ε parse fs p fs2 n hp hload
    cases hr : parse ((ensureFile fs p p).getD "") with
    | error e =>
      simp only [load, hr] at hload
      exact absurd (congrArg Prod.snd hload) (by simp)
    | ok data =>
      simp only [load, hr] at hload
      have h2 : (Except.ok (pyInit data (some p)) : Except ε Attrs) = Except.ok n :=
        congrArg Prod.snd hload
      have hn : pyInit data (some p) = n := by simpa using h2
      subst hn
      simp [pyInit, hp, getKey_setKey_self]

/-- Witness for C7: export exclusion on a node carrying an origin, a
cleanly constructed tree with no origin anywhere, and a concrete `load`
attaching its path. -/
theorem C7_origin_witness :
    hasKey (to_dict (pyInit [("a", Val.vInt 1)] (some "cfg.toml"))) "__file__" = false ∧
    originFreeNode (construct [("a", Val.vDict [("b", Val.vInt 1)])]) = true ∧
    getKey (pyInit [("a", Val.vInt 1)] (some "cfg.toml")) "__file__" =
      some (Val.vStr "cfg.toml") :=
  ⟨C7_origin_invariant.1 _,
   C7_origin_invariant.2.1 _ rfl rfl,
   C7_origin_invariant.2.2 Unit (fun _ => Except.ok [("a", Val.vInt 1)]) (fun _ => none)
     "cfg.toml" _ _ (by decide) rfl⟩

/-- Claim C8: `load` touches the file (creating empty content when absent,
keeping existing content unchanged, touching no other path), parses the
resulting full text with the TOML codec, propagates a parse failure
unchanged, and otherwise builds the node tree by the construction rule
with the (non-empty) path attached as origin. -/
theorem C8_load_contract (ε : Type) (parse : String → Except ε (List (String × Val)))
    (fs : String → Option String) (p : String) :
    (fs p = none → (load parse fs p).1 p = some "") ∧
    (∀ c, fs p = some c → (load parse fs p).1 p = some c) ∧
    (∀ q, q ≠ p → (load parse fs p).1 q = fs q) ∧
    (∀ e, parse (((load parse fs p).1 p).getD "") = .error e →
      (load parse fs p).2 = .error e) ∧
    (∀ data, parse (((load parse fs p).1 p).getD "") = .ok data →
      (load parse fs p).2 = .ok (pyInit data (some p))) ∧
    (∀ data, p ≠ "" → parse (((load parse fs p).1 p).getD "") = .ok data →
      ∀ n, (load parse fs p).2 = .ok n → getKey n "__file__" = some (.vStr p)) := by
  have hfst : (load parse fs p).1 = ensureFile fs p := by
    cases hr : parse ((ensureFile fs p p).getD "") <;> simp [load, hr]
  refine ⟨?_, ?_, ?_, ?_, ?_, ?_⟩
  · intro h; rw [hfst]; simp [ensureFile, h]
  · intro c h; rw [hfst]; simp [ensureFile, h]
  · intro q hq; rw [hfst]; simp [ensureFile, hq]
  · intro e h
    rw [hfst] at h
    simp [load, h]
  · intro data h
    rw [hfst] at h
    simp [load, h]
  · intro data hp h n hn
    rw [hfst] at h
    simp only [load, h] at hn
    have h2 : pyInit data (some p) = n := by simpa using hn
    subst h2
    simp [pyInit, hp, getKey_setKey_self]

/-- Witness for C8: loading a nonexistent path with a codec that parses
empty text to the empty mapping yields an empty document with the path
attached. -/
theorem C8_load_witness :
    ((fun _ => none : String → Option String) "new.toml" = none →
      (load (fun s => if s = "" then Except.ok ([] : List (String × Val))
        else Except.error ()) (fun _ => none) "new.toml").1 "new.toml" = some "") ∧
    (load (fun s => if s = "" then Except.ok ([] : List (String × Val))
      else Except.error ()) (fun _ => none) "new.toml").2 =
      .ok (pyInit [] (some "new.toml")) :=
  ⟨fun _ => (C8_load_contract Unit _ (fun _ => none) "new.toml").1 rfl,
   (C8_load_contract Unit
     (fun s => if s = "" then Except.ok ([] : List (String × Val)) else Except.error ())
     (fun _ => none) "new.toml").2.2.2.2.1 [] rfl⟩

/-- Claim C9: whenever `remove_item` or `update_item` raises `KeyError`,
the tree is exactly as before the call — all checks happen before the
single mutation, so a failed traversal changes nothing. -/
theorem C9_failed_mutators_atomic (n : Attrs) (key : String) (v : Val) :
    (∀ e, (remove_item n key).2 = some e → (remove_item n key).1 = n) ∧
    (∀ e, (update_item n key v).2 = some e → (update_item n key v).1 = n) := by
  constructor
  · exact fun e he => removeRun_fst_of_err key (splitDots key) n e he
  · intro e he
    by_cases h : hasKey n key
    · simp [update_item, h] at he
    · simp [update_item, h]

/-- Witness for C9: a failing dotted removal and a failing update both
leave the concrete tree untouched. -/
theorem C9_atomic_witness :
    (remove_item [("a", Val.vNode [("b", Val.vInt 1)])] "a.x").1 =
      [("a", Val.vNode [("b", Val.vInt 1)])] ∧
    (update_item [("a", Val.vNode [("b", Val.vInt 1)])] "z" (Val.vInt 2)).1 =
      [("a", Val.vNode [("b", Val.vInt 1)])] :=
  ⟨(C9_failed_mutators_atomic [("a", Val.vNode [("b", Val.vInt 1)])] "a.x" Val.vNone).1
     (.keyError (keyErrMsg "a.x")) rfl,
   (C9_failed_mutators_atomic [("a", Val.vNode [("b", Val.vInt 1)])] "z" (Val.vInt 2)).2
     (.keyError (keyErrMsg "z")) rfl⟩

/-- Claim C10, counterexample: with the dotted key `__file__` (no dot, one
segment) and a mapping value, `add_item` stores the raw mapping and `get`
returns it as-is, but `to_dict` does not pass the binding through
unchanged — it omits it entirely, by the origin-name exclusion. -/
theorem C10_add_dict_cex :
    add_item [] "__file__" (Val.vDict [("a", Val.vInt 1)]) =
      .ok [("__file__", Val.vDict [("a", Val.vInt 1)])] ∧
    get [("__file__", Val.vDict [("a", Val.vInt 1)])] "__file__" =
      .ok (Val.vDict [("a", Val.vInt 1)]) ∧
    to_dict [("__file__", Val.vDict [("a", Val.vInt 1)])] = [] :=
  ⟨rfl, rfl, rfl⟩

/-- Claim C10, amended: when no segment of the dotted key is the reserved
name `__file__` (and the walk is defined, as in C4), a mapping value is
bound raw at the leaf — not converted to a sub-node — so `get` on the last
segment returns the mapping itself (not a one-level-unwrapped node view)
and `to_dict` passes it through unchanged instead of recursing. -/
theorem C10_add_dict_raw (n : Attrs) (key : String) (d : List (String × Val)) (n2 : Attrs)
    (h : add_item n key (.vDict d) = .ok n2) (hf : "__file__" ∉ splitDots key) :
    chainGet n2 (splitDots key) = some (.vDict d) ∧
    (∀ pre k m, splitDots key = pre ++ [k] → nodeAt n2 pre = some m →
      get m k = .ok (.vDict d)) ∧
    dictChainGet (to_dict n2) (splitDots key) = some (.vDict d) := by
  have h1 : chainGet n2 (splitDots key) = some (.vDict d) :=
    addGo_chainGet (splitDots key) n n2 (.vDict d) (splitDots_ne_nil key) h
  refine ⟨h1, fun pre k m hsplit hm => ?_,
    to_dict_chainGet (splitDots key) n2 (.vDict d) (.vDict d) h1 hf rfl⟩
  have h2 := chainGet_append_singleton pre n2 k
  rw [← hsplit, h1, hm] at h2
  have h3 : getKey m k = some (Val.vDict d) := h2.symm
  simp [get, h3]

/-- Witness for C10: `add_item('s.t', dict)` stores the raw dict, `get`
returns it ununwrapped, and it appears unchanged in the export. -/
theorem C10_add_dict_witness :
    chainGet [("s", Val.vNode [("t", Val.vDict [("x", Val.vInt 7)])])] (splitDots "s.t") =
      some (Val.vDict [("x", Val.vInt 7)]) ∧
    get [("t", Val.vDict [("x", Val.vInt 7)])] "t" = .ok (Val.vDict [("x", Val.vInt 7)]) ∧
    dictChainGet (to_dict [("s", Val.vNode [("t", Val.vDict [("x", Val.vInt 7)])])])
      (splitDots "s.t") = some (Val.vDict [("x", Val.vInt 7)]) :=
  ⟨(C10_add_dict_raw [] "s.t" [("x", Val.vInt 7)] _ rfl (by decide)).1,
   (C10_add_dict_raw [] "s.t" [("x", Val.vInt 7)] _ rfl (by decide)).2.1
     ["s"] "t" [("t", Val.vDict [("x", Val.vInt 7)])] (by decide) rfl,
   (C10_add_dict_raw [] "s.t" [("x", Val.vInt 7)] _ rfl (by decide)).2.2⟩

end TomlLib
